import Mathlib

/-!
Verification of the CLI documentation generator (`dev/generate_cli_docs.py`).

Strings are modelled as `List Char`; every Python helper of the script is
embedded as an executable Lean function.  Fueled recursion is used for the
left-to-right scanners (`re.sub`, `re.split`, `str.replace`): each step of
these scanners consumes at least one character, so fuel equal to the length of
the input (always supplied by the wrappers) never runs out; the fuel-exhausted
branches are unreachable.
-/

set_option maxHeartbeats 1000000
set_option maxRecDepth 100000

namespace CliDocs

/-- Backtick, the inline-code delimiter (code point 96). -/
def bt : Char := Char.ofNat 96

/-- Character list of a string literal. -/
def toL (s : String) : List Char := s.toList

/-- Whitespace as matched by Python's regex class \s and str.strip, in the
ASCII range (Python additionally accepts some non-ASCII Unicode whitespace;
no input appearing here contains any). -/
def isPySpace (c : Char) : Bool :=
  c = ' ' || c = '\t' || c = '\n' || c = '\r' || c = Char.ofNat 11 || c = Char.ofNat 12

/-- Python str.strip(): remove leading and trailing whitespace. -/
def pyStrip (s : List Char) : List Char :=
  ((s.dropWhile isPySpace).reverse.dropWhile isPySpace).reverse

/-- Python help_text.split("\n"): one piece per newline-separated segment.
The inner [] branch is unreachable (the function never returns []). -/
def splitLines : List Char → List (List Char)
  | [] => [[]]
  | c :: cs =>
    match splitLines cs with
    | [] => [[c]]
    | l :: ls => if c = '\n' then [] :: l :: ls else (c :: l) :: ls

/-- Python sep.join(pieces). -/
def joinSep (sep : List Char) : List (List Char) → List Char
  | [] => []
  | [x] => x
  | x :: xs => x ++ sep ++ joinSep sep xs

/-- Python str.replace with a one-character needle: every occurrence of c is
replaced by r, scanning left to right. -/
def replaceChar (c : Char) (r : List Char) : List Char → List Char
  | [] => []
  | d :: ds => if d = c then r ++ replaceChar c r ds else d :: replaceChar c r ds

/-- part.replace("&lt;", escaped further below).replace: the escaping applied to
the even (non-code) pieces, part.replace("<", "&lt;").replace(">", "&gt;")
(line 51 of the script). -/
def escSeg (s : List Char) : List Char :=
  replaceChar '>' (toL "&gt;") (replaceChar '<' (toL "&lt;") s)

/-- Fueled scanner for re.split on the pattern of a backtick, a run of
non-backticks and a backtick, keeping the delimiters (line 45): the result
alternates non-code text (even positions) and complete backtick-delimited code
spans (odd positions); a trailing unpaired backtick stays inside the final
non-code piece.  Each recursive step consumes at least two characters, so fuel
equal to the length of the string (supplied by splitCodeSpans) never runs out. -/
def splitCodeF : Nat → List Char → List (List Char)
  | 0, s => [s]
  | fuel + 1, s =>
    match s.dropWhile (fun c => c != bt) with
    | [] => [s]
    | _ :: tail =>
      match tail.dropWhile (fun c => c != bt) with
      | [] => [s]
      | _ :: tail2 =>
        s.takeWhile (fun c => c != bt) ::
          (bt :: tail.takeWhile (fun c => c != bt) ++ [bt]) :: splitCodeF fuel tail2

/-- re.split of line 45, at its always-sufficient fuel. -/
def splitCodeSpans (s : List Char) : List (List Char) := splitCodeF s.length s

/-- The reassembly loop of escape_html_tags (lines 47-54): pieces at even
indices are escaped, pieces at odd indices (the code spans) are kept verbatim.
The flag is true exactly on odd positions. -/
def escAlt : Bool → List (List Char) → List (List Char)
  | _, [] => []
  | false, p :: ps => escSeg p :: escAlt true ps
  | true, p :: ps => p :: escAlt false ps

/-- Fueled left-to-right rewrite scan, the common shape of re.sub and
str.replace: at each position either the step matches, its replacement is
emitted and scanning resumes after the consumed text (the replacement is not
rescanned), or one character is copied.  Every successful step consumes at
least one character, so fuel equal to the length of the input (supplied by the
wrappers) never runs out. -/
def rewriteScan (step : List Char → Option (List Char × List Char)) :
    Nat → List Char → List Char
  | 0, s => s
  | fuel + 1, s =>
    match s with
    | [] => []
    | c :: cs =>
      match step s with
      | some (out, rest) => out ++ rewriteScan step fuel rest
      | none => c :: rewriteScan step fuel cs

/-- The literal prefix of the first URL-placeholder pattern of line 40. -/
def localhostPat : List Char := toL "http://localhost:<"

/-- One match attempt, at the start of s, of the regex of line 40
(the localhost prefix, then one or more non-'>' characters, then '>').
On success returns the replacement (the whole match wrapped in backticks,
as the substitution template of line 40 produces) and the rest of the string. -/
def stepLocalhost (s : List Char) : Option (List Char × List Char) :=
  if localhostPat.isPrefixOf s then
    let t := s.drop localhostPat.length
    match t.dropWhile (fun c => c != '>') with
    | '>' :: tail =>
      if t.takeWhile (fun c => c != '>') = [] then none
      else some (bt :: (localhostPat ++ t.takeWhile (fun c => c != '>') ++ ['>']) ++ [bt], tail)
    | _ => none
  else none

/-- The literal prefix of the second URL-placeholder pattern of line 41. -/
def httpsPat : List Char := toL "https://"

/-- One match attempt, at the start of s, of the regex of line 41: "https://",
one or more characters that are neither '<' nor whitespace, '<', one or more
non-'>' characters, '>'.  Both greedy runs contain no character that could
serve as the required delimiter, so regex backtracking never helps and the
maximal-run reading is exact. -/
def stepHttps (s : List Char) : Option (List Char × List Char) :=
  if httpsPat.isPrefixOf s then
    let t := s.drop httpsPat.length
    let run1 := t.takeWhile (fun c => c != '<' && !isPySpace c)
    match t.dropWhile (fun c => c != '<' && !isPySpace c) with
    | '<' :: u =>
      if run1 = [] then none
      else
        let run2 := u.takeWhile (fun c => c != '>')
        match u.dropWhile (fun c => c != '>') with
        | '>' :: tail =>
          if run2 = [] then none
          else some (bt :: (httpsPat ++ run1 ++ '<' :: run2 ++ ['>']) ++ [bt], tail)
        | _ => none
    | _ => none
  else none

/-- The first substitution of escape_html_tags (line 40). -/
def sub1 (s : List Char) : List Char := rewriteScan stepLocalhost s.length s

/-- The second substitution of escape_html_tags (line 41). -/
def sub2 (s : List Char) : List Char := rewriteScan stepHttps s.length s

/-- The two URL-placeholder rewrites escape_html_tags performs before the
code-span split (lines 40-41). -/
def urlRewrite (s : List Char) : List Char := sub2 (sub1 s)

/-- The split / escape / reassemble phase of escape_html_tags (lines 45-56). -/
def escPhase (s : List Char) : List Char := (escAlt false (splitCodeSpans s)).flatten

/-- escape_html_tags (lines 35-56). -/
def escape_html_tags (s : List Char) : List Char := escPhase (urlRewrite s)

/-- The inline code spans of a string: the contents of the backtick-delimited
pairs, scanned left to right (spec glossary, "Code span").  Fueled like
splitCodeF; fuel equal to the length (supplied by codeSpans) suffices. -/
def codeSpansF : Nat → List Char → List (List Char)
  | 0, _ => []
  | fuel + 1, s =>
    match s.dropWhile (fun c => c != bt) with
    | [] => []
    | _ :: tail =>
      match tail.dropWhile (fun c => c != bt) with
      | [] => []
      | _ :: tail2 => tail.takeWhile (fun c => c != bt) :: codeSpansF fuel tail2

/-- Code spans of a string, at the always-sufficient fuel. -/
def codeSpans (s : List Char) : List (List Char) := codeSpansF s.length s

/-- One str.replace step for clean_usage_line (line 32). -/
def stepUsage (s : List Char) : Option (List Char × List Char) :=
  if (toL "Usage: cli ").isPrefixOf s then
    some (toL "Usage: cocoindex ", s.drop (toL "Usage: cli ").length)
  else none

/-- clean_usage_line (lines 29-32): usage.replace("Usage: cli ", "Usage: cocoindex "). -/
def clean_usage_line (usage : List Char) : List Char :=
  rewriteScan stepUsage usage.length usage

/-- The header scan of format_options_section (lines 65-70): the Options index
keeps being updated by later "Options:" lines; the scan stops at the first
"Commands:" line. -/
def findStartsGo : List (List Char) → Nat → Option Nat → Option Nat × Option Nat
  | [], _, acc => (acc, none)
  | l :: ls, i, acc =>
    if pyStrip l = toL "Options:" then findStartsGo ls (i + 1) (some i)
    else if pyStrip l = toL "Commands:" then (acc, some i)
    else findStartsGo ls (i + 1) acc

/-- re.search(r two-or-more whitespace, content) (lines 100-104): locates the
first position where two consecutive whitespace characters occur and returns
content before the match and content after the maximal whitespace run there,
i.e. content[:m.start()] and content[m.end():]. -/
def searchWs2 : List Char → Option (List Char × List Char)
  | [] => none
  | [_] => none
  | a :: b :: rest =>
    if isPySpace a && isPySpace b then
      some ([], (a :: b :: rest).dropWhile isPySpace)
    else
      match searchWs2 (b :: rest) with
      | some (pre, post) => some (a :: pre, post)
      | none => none

/-- One formatted options-table row (lines 92-94 and 117-120): the pending
option is flushed as a two-cell row, the description being the space-join of
the collected description lines, stripped, then passed through
escape_html_tags. -/
def optionRow (opt : List Char) (descParts : List (List Char)) : List Char :=
  toL "| `" ++ opt ++ toL "` | "
    ++ escape_html_tags (pyStrip (joinSep (toL " ") descParts)) ++ toL " |"

/-- The option-parsing loop of format_options_section (lines 79-120), carried
over the remaining lines together with the pending option and its collected
description lines; rows are emitted in source order. -/
def optionsLoop : List (List Char) → Option (List Char) → List (List Char) → List (List Char)
  | [], none, _ => []
  | [], some o, d => [optionRow o d]
  | line :: rest, curOpt, curDesc =>
    if pyStrip line = [] then optionsLoop rest curOpt curDesc
    else if (toL "  -").isPrefixOf line && !((toL "   ").isPrefixOf line) then
      (match curOpt with
       | some o => [optionRow o curDesc]
       | none => []) ++
      (match searchWs2 (line.drop 2) with
       | some (pre, post) =>
          optionsLoop rest (some (pyStrip pre))
            (if pyStrip post = [] then [] else [pyStrip post])
       | none => optionsLoop rest (some (pyStrip (line.drop 2))) [])
    else
      if curOpt.isSome && pyStrip line != [] then
        optionsLoop rest curOpt (curDesc ++ [pyStrip line])
      else optionsLoop rest curOpt curDesc

/-- format_options_section (lines 59-126).  The options region ends at the
Commands header when present; Python's expression
"commands_start if commands_start else len(lines)" treats index 0 as falsy,
which is reproduced here. -/
def format_options_section (help : List Char) : List Char :=
  let lines := splitLines help
  match findStartsGo lines 0 none with
  | (none, _) => []
  | (some oi, cs) =>
    let endIdx := match cs with
      | some ci => if ci = 0 then lines.length else ci
      | none => lines.length
    let rows := optionsLoop ((lines.drop (oi + 1)).take (endIdx - (oi + 1))) none []
    if rows = [] then []
    else toL "| Option | Description |\n|--------|-------------|" ++ toL "\n"
      ++ joinSep (toL "\n") rows ++ toL "\n"

/-- The header scan of format_commands_section (lines 134-137): index of the
first "Commands:" line. -/
def findCmdStart : List (List Char) → Nat → Option Nat
  | [], _ => none
  | l :: ls, i => if pyStrip l = toL "Commands:" then some i else findCmdStart ls (i + 1)

/-- Python regex class \w in the ASCII range (the help text is ASCII). -/
def isWordChar (c : Char) : Bool := c.isAlphanum || c = '_'

/-- re.match of line 153: exactly two spaces, a nonempty run of word
characters, two or more whitespace characters, then at least one further
character up to the end of the line; returns (group 1, group 2).  When nothing
follows the whitespace run, the regex backtracks and group 2 is the last
whitespace character of the run (possible only when the run has length ≥ 3). -/
def matchCmdLine (line : List Char) : Option (List Char × List Char) :=
  match line with
  | ' ' :: ' ' :: rest =>
    let w := rest.takeWhile isWordChar
    if w = [] then none
    else
      let r1 := rest.dropWhile isWordChar
      let ws := r1.takeWhile isPySpace
      let r2 := r1.dropWhile isPySpace
      if 2 ≤ ws.length then
        if r2 = [] then
          if 3 ≤ ws.length then some (w, ws.drop (ws.length - 1)) else none
        else some (w, r2)
      else none
  | _ => none

/-- The command-row loop of format_commands_section (lines 148-160): blank
lines are skipped; each matching line becomes a two-cell row, the description
stripped and truncated to 77 characters plus an ellipsis when longer than 80.
The description cell is NOT passed through escape_html_tags. -/
def format_commands_rows (ls : List (List Char)) : List (List Char) :=
  ls.filterMap fun line =>
    if pyStrip line = [] then none
    else
      match matchCmdLine line with
      | some (cmd, g2) =>
        let d := pyStrip g2
        some (toL "| `" ++ cmd ++ toL "` | "
          ++ (if 80 < d.length then d.take 77 ++ toL "..." else d) ++ toL " |")
      | none => none

/-- format_commands_section (lines 129-166). -/
def format_commands_section (help : List Char) : List Char :=
  let lines := splitLines help
  match findCmdStart lines 0 with
  | none => []
  | some i =>
    let rows := format_commands_rows (lines.drop (i + 1))
    if rows = [] then []
    else toL "| Command | Description |\n|---------|-------------|" ++ toL "\n"
      ++ joinSep (toL "\n") rows ++ toL "\n"

/-- The description-collecting loop of extract_description (lines 177-184):
collection starts after a line beginning with "Usage:", stops at an
"Options:" or "Commands:" header, and keeps the stripped nonblank lines. -/
def extractDescLoop : List (List Char) → Bool → List (List Char)
  | [], _ => []
  | line :: rest, inDesc =>
    if (toL "Usage:").isPrefixOf line then extractDescLoop rest true
    else if pyStrip line = toL "Options:" || pyStrip line = toL "Commands:" then []
    else if inDesc && pyStrip line != [] then pyStrip line :: extractDescLoop rest inDesc
    else extractDescLoop rest inDesc

/-- extract_description (lines 169-187): the collected lines are joined with
blank-line separators and escaped. -/
def extract_description (help : List Char) : List Char :=
  escape_html_tags (joinSep (toL "\n\n") (extractDescLoop (splitLines help) false))

/-- One record per CLI command as produced by md_click's recursive help:
the parent command name (empty for the root), the command's own name
(doc["command"].name), the usage line and the raw help text. -/
structure CommandDoc where
  parent : List Char
  name : List Char
  usage : List Char
  help : List Char
  deriving Repr, DecidableEq

/-- One iteration of the partition loop of lines 197-202: a doc whose parent
is falsy (the empty string) overwrites main_cli, every other doc is appended
to subcommands. -/
def selectStep (acc : Option CommandDoc × List CommandDoc) (doc : CommandDoc) :
    Option CommandDoc × List CommandDoc :=
  if doc.parent.isEmpty then (some doc, acc.2) else (acc.1, acc.2 ++ [doc])

/-- The partition of lines 193-202 over the whole doc list. -/
def selectMain (docs : List CommandDoc) : Option CommandDoc × List CommandDoc :=
  docs.foldl selectStep (none, [])

/-- Lexicographic comparison of strings by code point, as Python's order on
str. -/
def lexLe : List Char → List Char → Bool
  | [], _ => true
  | _ :: _, [] => false
  | a :: as, b :: bs =>
    if a.toNat < b.toNat then true
    else if b.toNat < a.toNat then false
    else lexLe as bs

/-- The key comparison of line 253: docs compared by their command name. -/
def nameLe (a b : CommandDoc) : Bool := lexLe a.name b.name

/-- sorted(subcommands, key=lambda x: x["command"].name) (line 253): Python's
sorted is a stable sort comparing the keys; modelled with the standard stable
merge sort. -/
def sortedSubs (subs : List CommandDoc) : List CommandDoc :=
  subs.mergeSort nameLe

/-- The root-command part of the generated document (lines 206-247), one list
entry per markdown_content.append. -/
def mainSection (m : CommandDoc) : List (List Char) :=
  let descr := extract_description m.help
  let opts := format_options_section m.help
  let cmds := format_commands_section m.help
  [toL "# CLI Commands Reference", [],
   toL "This page contains the detailed help information for all CocoIndex CLI commands.",
   []]
  ++ (if descr = [] then [] else [toL "## Overview", [], descr, []])
  ++ [toL "## Usage", [], toL "```sh", clean_usage_line m.usage, toL "```", []]
  ++ (if opts = [] then [] else [toL "## Global Options", [], opts, []])
  ++ (if cmds = [] then [] else [toL "## Commands", [], cmds, []])

/-- One subcommand subsection (lines 253-284). -/
def subSection (d : CommandDoc) : List (List Char) :=
  let descr := extract_description d.help
  let opts := format_options_section d.help
  [toL "### `" ++ d.name ++ toL "`", []]
  ++ (if descr = [] then [] else [descr, []])
  ++ [toL "**Usage:**", [], toL "```bash", clean_usage_line d.usage, toL "```", []]
  ++ (if opts = [] then [] else [toL "**Options:**", [], opts, []])
  ++ [toL "---", []]

/-- generate_command_docs (lines 190-286): main part, then the "## Command
Details" heading, then one subsection per subcommand sorted by name, all
joined with newlines. -/
def generate_command_docs (docs : List CommandDoc) : List Char :=
  joinSep (toL "\n")
    ((match (selectMain docs).1 with
      | some m => mainSection m
      | none => [])
     ++ [toL "## Command Details", []]
     ++ (sortedSubs (selectMain docs).2).flatMap subSection)

/-- The writer logic of main (lines 311-326), the output file modelled as an
optional content: returns the file content after the run and whether a write
was performed.  content_changed starts true and becomes the byte comparison
when a file already exists. -/
def writeIfChanged (existing : Option (List Char)) (markdown : List Char) :
    Option (List Char) × Bool :=
  let contentChanged : Bool :=
    match existing with
    | some e => e != markdown
    | none => true
  if contentChanged then (some markdown, true) else (existing, false)

/-! ### Helper lemmas: takeWhile / dropWhile at the backtick predicate -/

theorem dropWhile_head_false {p : Char → Bool} {l : List Char} {b : Char} {bs : List Char}
    (h : l.dropWhile p = b :: bs) : p b = false := by
  induction l with
  | nil => simp at h
  | cons a as ih =>
    by_cases hp : p a
    · rw [List.dropWhile_cons_of_pos hp] at h
      exact ih h
    · rw [List.dropWhile_cons_of_neg hp] at h
      cases h
      simpa using hp

theorem all_nb_takeWhile (l : List Char) :
    ∀ c ∈ l.takeWhile (fun c => c != bt), c ≠ bt :=
  fun _ hc => by simpa using List.mem_takeWhile_imp hc

theorem all_nb_of_dropWhile_nil {l : List Char}
    (hd : l.dropWhile (fun c => c != bt) = []) : ∀ c ∈ l, c ≠ bt := by
  have hself : l.takeWhile (fun c => c != bt) = l := by
    have h := List.takeWhile_append_dropWhile (p := fun c => c != bt) (l := l)
    rw [hd, List.append_nil] at h
    exact h
  intro c hc
  exact all_nb_takeWhile l c (by rw [hself]; exact hc)

theorem dropWhile_nb_eq_nil {e : List Char} (h : ∀ c ∈ e, c ≠ bt) :
    e.dropWhile (fun c => c != bt) = [] :=
  List.dropWhile_eq_nil_iff.mpr (fun c hc => by simpa using h c hc)

theorem takeWhile_nb_eq_self {e : List Char} (h : ∀ c ∈ e, c ≠ bt) :
    e.takeWhile (fun c => c != bt) = e :=
  List.takeWhile_eq_self_iff.mpr (fun c hc => by simpa using h c hc)

theorem dropWhile_nb_append_bt {e r : List Char} (h : ∀ c ∈ e, c ≠ bt) :
    (e ++ bt :: r).dropWhile (fun c => c != bt) = bt :: r := by
  induction e with
  | nil =>
    simp only [List.nil_append]
    exact List.dropWhile_cons_of_neg (by simp)
  | cons a as ih =>
    have ha : ((fun c => c != bt) a) = true := by simpa using h a (by simp)
    rw [List.cons_append, List.dropWhile_cons_of_pos (p := fun c => c != bt) ha]
    exact ih (fun c hc => h c (by simp [hc]))

theorem takeWhile_nb_append_bt {e r : List Char} (h : ∀ c ∈ e, c ≠ bt) :
    (e ++ bt :: r).takeWhile (fun c => c != bt) = e := by
  induction e with
  | nil =>
    simp only [List.nil_append]
    exact List.takeWhile_cons_of_neg (by simp)
  | cons a as ih =>
    have ha : ((fun c => c != bt) a) = true := by simpa using h a (by simp)
    rw [List.cons_append, List.takeWhile_cons_of_pos (p := fun c => c != bt) ha]
    exact congrArg (a :: ·) (ih (fun c hc => h c (by simp [hc])))

/-- Every string is backtick-free, or consists of a backtick-free prefix, one
backtick and a backtick-free rest (an unpaired backtick), or opens a complete
code span followed by a remainder shorter by at least two characters. -/
theorem span_shape (t : List Char) :
    (∀ c ∈ t, c ≠ bt) ∨
    (∃ e r, t = e ++ bt :: r ∧ (∀ c ∈ e, c ≠ bt) ∧ (∀ c ∈ r, c ≠ bt)) ∨
    (∃ e m u, t = e ++ bt :: (m ++ bt :: u) ∧ (∀ c ∈ e, c ≠ bt) ∧
      (∀ c ∈ m, c ≠ bt) ∧ u.length + 2 ≤ t.length) := by
  cases hd : t.dropWhile (fun c => c != bt) with
  | nil => exact Or.inl (all_nb_of_dropWhile_nil hd)
  | cons b tail =>
    have hb : b = bt := by simpa using dropWhile_head_false hd
    subst hb
    have ht : t = t.takeWhile (fun c => c != bt) ++ bt :: tail := by
      conv_lhs => rw [← List.takeWhile_append_dropWhile (p := fun c => c != bt) (l := t)]
      rw [hd]
    cases hd2 : tail.dropWhile (fun c => c != bt) with
    | nil =>
      exact Or.inr (Or.inl ⟨t.takeWhile (fun c => c != bt), tail, ht,
        all_nb_takeWhile t, all_nb_of_dropWhile_nil hd2⟩)
    | cons b2 u =>
      have hb2 : b2 = bt := by simpa using dropWhile_head_false hd2
      subst hb2
      have htail : tail = tail.takeWhile (fun c => c != bt) ++ bt :: u := by
        conv_lhs => rw [← List.takeWhile_append_dropWhile (p := fun c => c != bt) (l := tail)]
        rw [hd2]
      refine Or.inr (Or.inr ⟨t.takeWhile (fun c => c != bt),
        tail.takeWhile (fun c => c != bt), u, ?_, all_nb_takeWhile t,
        all_nb_takeWhile tail, ?_⟩)
      · conv_lhs => rw [ht, htail]
      · have h1 : t.length =
            (t.takeWhile (fun c => c != bt)).length + tail.length + 1 := by
          conv_lhs => rw [ht]
          simp [List.length_append]
          omega
        have h2 : tail.length =
            (tail.takeWhile (fun c => c != bt)).length + u.length + 1 := by
          conv_lhs => rw [htail]
          simp [List.length_append]
          omega
        omega

/-! ### Fuel-independence and evaluation lemmas for the code-span scanners -/

theorem splitCodeF_nil (f : Nat) : splitCodeF f [] = [[]] := by
  cases f <;> simp [splitCodeF]

theorem codeSpansF_nil (f : Nat) : codeSpansF f [] = [] := by
  cases f <;> simp [codeSpansF]

theorem splitCodeF_all {t : List Char} (h : ∀ c ∈ t, c ≠ bt) (f : Nat) :
    splitCodeF f t = [t] := by
  cases f with
  | zero => rfl
  | succ f => simp only [splitCodeF, dropWhile_nb_eq_nil h]

theorem splitCodeF_unclosed {e r : List Char} (he : ∀ c ∈ e, c ≠ bt)
    (hr : ∀ c ∈ r, c ≠ bt) (f : Nat) :
    splitCodeF f (e ++ bt :: r) = [e ++ bt :: r] := by
  cases f with
  | zero => rfl
  | succ f =>
    simp only [splitCodeF, dropWhile_nb_append_bt he, dropWhile_nb_eq_nil hr]

theorem splitCodeF_span_succ {e m u : List Char} (he : ∀ c ∈ e, c ≠ bt)
    (hm : ∀ c ∈ m, c ≠ bt) (f : Nat) :
    splitCodeF (f + 1) (e ++ bt :: (m ++ bt :: u)) =
      e :: (bt :: m ++ [bt]) :: splitCodeF f u := by
  simp only [splitCodeF, dropWhile_nb_append_bt he, takeWhile_nb_append_bt he,
    dropWhile_nb_append_bt hm, takeWhile_nb_append_bt hm]

theorem codeSpansF_all {t : List Char} (h : ∀ c ∈ t, c ≠ bt) (f : Nat) :
    codeSpansF f t = [] := by
  cases f with
  | zero => rfl
  | succ f => simp only [codeSpansF, dropWhile_nb_eq_nil h]

theorem codeSpansF_unclosed {e r : List Char} (he : ∀ c ∈ e, c ≠ bt)
    (hr : ∀ c ∈ r, c ≠ bt) (f : Nat) : codeSpansF f (e ++ bt :: r) = [] := by
  cases f with
  | zero => rfl
  | succ f =>
    simp only [codeSpansF, dropWhile_nb_append_bt he, dropWhile_nb_eq_nil hr]

theorem codeSpansF_span_succ {e m u : List Char} (he : ∀ c ∈ e, c ≠ bt)
    (hm : ∀ c ∈ m, c ≠ bt) (f : Nat) :
    codeSpansF (f + 1) (e ++ bt :: (m ++ bt :: u)) =
      m :: codeSpansF f u := by
  simp only [codeSpansF, dropWhile_nb_append_bt he, dropWhile_nb_append_bt hm,
    takeWhile_nb_append_bt hm]

theorem splitCodeF_congr : ∀ (f g : Nat) (s : List Char),
    s.length ≤ f → s.length ≤ g → splitCodeF f s = splitCodeF g s := by
  intro f
  induction f with
  | zero =>
    intro g s hf _
    have hs : s = [] := List.length_eq_zero.mp (Nat.le_zero.mp hf)
    subst hs
    rw [splitCodeF_nil, splitCodeF_nil]
  | succ f ih =>
    intro g s hf hg
    cases g with
    | zero =>
      have hs : s = [] := List.length_eq_zero.mp (Nat.le_zero.mp hg)
      subst hs
      rw [splitCodeF_nil, splitCodeF_nil]
    | succ g =>
      rcases span_shape s with h | ⟨e, r, rfl, he, hr⟩ | ⟨e, m, u, rfl, he, hm, hu⟩
      · rw [splitCodeF_all h, splitCodeF_all h]
      · rw [splitCodeF_unclosed he hr, splitCodeF_unclosed he hr]
      · rw [splitCodeF_span_succ he hm, splitCodeF_span_succ he hm]
        have hle : u.length ≤ f ∧ u.length ≤ g := by
          simp only [List.length_append, List.length_cons] at hf hg hu
          omega
        rw [ih g u hle.1 hle.2]

theorem codeSpansF_congr : ∀ (f g : Nat) (s : List Char),
    s.length ≤ f → s.length ≤ g → codeSpansF f s = codeSpansF g s := by
  intro f
  induction f with
  | zero =>
    intro g s hf _
    have hs : s = [] := List.length_eq_zero.mp (Nat.le_zero.mp hf)
    subst hs
    rw [codeSpansF_nil, codeSpansF_nil]
  | succ f ih =>
    intro g s hf hg
    cases g with
    | zero =>
      have hs : s = [] := List.length_eq_zero.mp (Nat.le_zero.mp hg)
      subst hs
      rw [codeSpansF_nil, codeSpansF_nil]
    | succ g =>
      rcases span_shape s with h | ⟨e, r, rfl, he, hr⟩ | ⟨e, m, u, rfl, he, hm, hu⟩
      · rw [codeSpansF_all h, codeSpansF_all h]
      · rw [codeSpansF_unclosed he hr, codeSpansF_unclosed he hr]
      · rw [codeSpansF_span_succ he hm, codeSpansF_span_succ he hm]
        have hle : u.length ≤ f ∧ u.length ≤ g := by
          simp only [List.length_append, List.length_cons] at hf hg hu
          omega
        rw [ih g u hle.1 hle.2]

theorem splitCodeSpans_all {t : List Char} (h : ∀ c ∈ t, c ≠ bt) :
    splitCodeSpans t = [t] := splitCodeF_all h _

theorem splitCodeSpans_unclosed {e r : List Char} (he : ∀ c ∈ e, c ≠ bt)
    (hr : ∀ c ∈ r, c ≠ bt) :
    splitCodeSpans (e ++ bt :: r) = [e ++ bt :: r] := splitCodeF_unclosed he hr _

theorem splitCodeSpans_span {e m u : List Char} (he : ∀ c ∈ e, c ≠ bt)
    (hm : ∀ c ∈ m, c ≠ bt) :
    splitCodeSpans (e ++ bt :: (m ++ bt :: u)) =
      e :: (bt :: m ++ [bt]) :: splitCodeSpans u := by
  have hlen : (e ++ bt :: (m ++ bt :: u)).length =
      (e.length + m.length + u.length + 1) + 1 := by
    simp only [List.length_append, List.length_cons]
    omega
  unfold splitCodeSpans
  rw [hlen, splitCodeF_span_succ he hm,
    splitCodeF_congr (e.length + m.length + u.length + 1) u.length u (by omega) le_rfl]

theorem codeSpans_all {t : List Char} (h : ∀ c ∈ t, c ≠ bt) :
    codeSpans t = [] := codeSpansF_all h _

theorem codeSpans_unclosed {e r : List Char} (he : ∀ c ∈ e, c ≠ bt)
    (hr : ∀ c ∈ r, c ≠ bt) : codeSpans (e ++ bt :: r) = [] :=
  codeSpansF_unclosed he hr _

theorem codeSpans_span {e m u : List Char} (he : ∀ c ∈ e, c ≠ bt)
    (hm : ∀ c ∈ m, c ≠ bt) :
    codeSpans (e ++ bt :: (m ++ bt :: u)) = m :: codeSpans u := by
  have hlen : (e ++ bt :: (m ++ bt :: u)).length =
      (e.length + m.length + u.length + 1) + 1 := by
    simp only [List.length_append, List.length_cons]
    omega
  unfold codeSpans
  rw [hlen, codeSpansF_span_succ he hm,
    codeSpansF_congr (e.length + m.length + u.length + 1) u.length u (by omega) le_rfl]

/-! ### Lemmas about the escaping of non-code pieces -/

theorem replaceChar_append (c : Char) (r a b : List Char) :
    replaceChar c r (a ++ b) = replaceChar c r a ++ replaceChar c r b := by
  induction a with
  | nil => rfl
  | cons d ds ih =>
    simp only [List.cons_append, replaceChar]
    by_cases h : d = c <;> simp [h, ih]

theorem mem_replaceChar {c : Char} {r l : List Char} {x : Char}
    (hx : x ∈ replaceChar c r l) : x ∈ r ∨ x ∈ l := by
  induction l with
  | nil => simp [replaceChar] at hx
  | cons d ds ih =>
    simp only [replaceChar] at hx
    by_cases h : d = c
    · rw [if_pos h] at hx
      rcases List.mem_append.mp hx with h1 | h2
      · exact Or.inl h1
      · rcases ih h2 with h3 | h4
        · exact Or.inl h3
        · exact Or.inr (by simp [h4])
    · rw [if_neg h] at hx
      rcases List.mem_cons.mp hx with h1 | h2
      · exact Or.inr (by simp [h1])
      · rcases ih h2 with h3 | h4
        · exact Or.inl h3
        · exact Or.inr (by simp [h4])

theorem not_mem_replaceChar_self {c : Char} {r : List Char} (hc : c ∉ r)
    (l : List Char) : c ∉ replaceChar c r l := by
  induction l with
  | nil => simp [replaceChar]
  | cons d ds ih =>
    simp only [replaceChar]
    by_cases h : d = c
    · rw [if_pos h]
      intro hm
      rcases List.mem_append.mp hm with h1 | h2
      · exact hc h1
      · exact ih h2
    · rw [if_neg h]
      intro hm
      rcases List.mem_cons.mp hm with h1 | h2
      · exact h h1.symm
      · exact ih h2

theorem replaceChar_of_not_mem {c : Char} {r l : List Char} (hc : c ∉ l) :
    replaceChar c r l = l := by
  induction l with
  | nil => rfl
  | cons d ds ih =>
    simp only [replaceChar]
    have hd : ¬(d = c) := fun h => hc (by simp [h])
    rw [if_neg hd, ih (fun h => hc (by simp [h]))]

theorem escSeg_append (a b : List Char) : escSeg (a ++ b) = escSeg a ++ escSeg b := by
  unfold escSeg
  rw [replaceChar_append, replaceChar_append]

theorem escSeg_cons_ne {d : Char} (h1 : ¬(d = '<')) (h2 : ¬(d = '>'))
    (l : List Char) : escSeg (d :: l) = d :: escSeg l := by
  unfold escSeg
  simp only [replaceChar, if_neg h1, if_neg h2]

theorem no_lt_escSeg (l : List Char) : '<' ∉ escSeg l := by
  unfold escSeg
  intro hm
  rcases mem_replaceChar hm with h1 | h2
  · exact absurd h1 (by decide)
  · exact not_mem_replaceChar_self (by decide) l h2

theorem no_gt_escSeg (l : List Char) : '>' ∉ escSeg l :=
  not_mem_replaceChar_self (by decide) _

theorem escSeg_idem (l : List Char) : escSeg (escSeg l) = escSeg l := by
  show replaceChar '>' (toL "&gt;") (replaceChar '<' (toL "&lt;") (escSeg l)) = escSeg l
  rw [replaceChar_of_not_mem (no_lt_escSeg l), replaceChar_of_not_mem (no_gt_escSeg l)]

theorem all_nb_escSeg {l : List Char} (h : ∀ c ∈ l, c ≠ bt) :
    ∀ c ∈ escSeg l, c ≠ bt := by
  intro c hc
  unfold escSeg at hc
  rcases mem_replaceChar hc with h1 | h2
  · intro hcbt
    subst hcbt
    exact absurd h1 (by decide)
  · rcases mem_replaceChar h2 with h3 | h4
    · intro hcbt
      subst hcbt
      exact absurd h3 (by decide)
    · exact h c h4

/-! ### Behaviour of the split/escape phase on each string shape -/

theorem escPhase_all {t : List Char} (h : ∀ c ∈ t, c ≠ bt) :
    escPhase t = escSeg t := by
  unfold escPhase
  rw [splitCodeSpans_all h]
  simp [escAlt]

theorem escPhase_unclosed {e r : List Char} (he : ∀ c ∈ e, c ≠ bt)
    (hr : ∀ c ∈ r, c ≠ bt) : escPhase (e ++ bt :: r) = escSeg (e ++ bt :: r) := by
  unfold escPhase
  rw [splitCodeSpans_unclosed he hr]
  simp [escAlt]

theorem escPhase_span {e m u : List Char} (he : ∀ c ∈ e, c ≠ bt)
    (hm : ∀ c ∈ m, c ≠ bt) :
    escPhase (e ++ bt :: (m ++ bt :: u)) =
      escSeg e ++ bt :: (m ++ bt :: escPhase u) := by
  unfold escPhase
  rw [splitCodeSpans_span he hm]
  simp [escAlt]

/-- The split/escape phase of the escaper preserves the code spans — their
number, their contents and their order. -/
theorem escPhase_codeSpans : ∀ (n : Nat) (t : List Char), t.length ≤ n →
    codeSpans (escPhase t) = codeSpans t := by
  intro n
  induction n with
  | zero =>
    intro t ht
    have hs : t = [] := List.length_eq_zero.mp (Nat.le_zero.mp ht)
    subst hs
    rfl
  | succ n ih =>
    intro t ht
    rcases span_shape t with h | ⟨e, r, rfl, he, hr⟩ | ⟨e, m, u, rfl, he, hm, hu⟩
    · rw [escPhase_all h, codeSpans_all (all_nb_escSeg h), codeSpans_all h]
    · rw [escPhase_unclosed he hr, escSeg_append,
        escSeg_cons_ne (by decide) (by decide),
        codeSpans_unclosed (all_nb_escSeg he) (all_nb_escSeg hr),
        codeSpans_unclosed he hr]
    · rw [escPhase_span he hm, codeSpans_span (all_nb_escSeg he) hm,
        codeSpans_span he hm]
      have hle : u.length ≤ n := by
        simp only [List.length_append, List.length_cons] at ht hu
        omega
      exact congrArg (m :: ·) (ih u hle)

/-- The split/escape phase of the escaper is idempotent. -/
theorem escPhase_idem : ∀ (n : Nat) (t : List Char), t.length ≤ n →
    escPhase (escPhase t) = escPhase t := by
  intro n
  induction n with
  | zero =>
    intro t ht
    have hs : t = [] := List.length_eq_zero.mp (Nat.le_zero.mp ht)
    subst hs
    rfl
  | succ n ih =>
    intro t ht
    rcases span_shape t with h | ⟨e, r, rfl, he, hr⟩ | ⟨e, m, u, rfl, he, hm, hu⟩
    · rw [escPhase_all h, escPhase_all (all_nb_escSeg h), escSeg_idem]
    · rw [escPhase_unclosed he hr, escSeg_append,
        escSeg_cons_ne (by decide) (by decide),
        escPhase_unclosed (all_nb_escSeg he) (all_nb_escSeg hr),
        escSeg_append, escSeg_cons_ne (by decide) (by decide),
        escSeg_idem, escSeg_idem]
    · rw [escPhase_span he hm, escPhase_span (all_nb_escSeg he) hm, escSeg_idem]
      have hle : u.length ≤ n := by
        simp only [List.length_append, List.length_cons] at ht hu
        omega
      rw [ih u hle]

/-! ### Claim C1 -/

/-- Claim C1, counterexample: escape_html_tags does not preserve code spans on
every input string — on the bare placeholder URL "http://localhost:<p>" the
input contains no code span while the output contains one, because the
URL-wrapping rewrite of line 40 deliberately creates a new backtick pair. -/
theorem escape_codeSpans_counterexample :
    codeSpans (escape_html_tags (toL "http://localhost:<p>")) ≠
      codeSpans (toL "http://localhost:<p>") := by decide

/-- Claim C1, amended: for every input string left unchanged by the two
URL-placeholder rewrites of lines 40-41, escape_html_tags preserves the
backtick-delimited code spans — their number, their contents character for
character, and their order. -/
theorem escape_html_tags_preserves_codeSpans (s : List Char)
    (h : urlRewrite s = s) :
    codeSpans (escape_html_tags s) = codeSpans s := by
  unfold escape_html_tags
  rw [h]
  exact escPhase_codeSpans s.length s le_rfl

/-- Witness for the amended claim C1 at the concrete input "see `<code>` here". -/
theorem escape_html_tags_preserves_codeSpans_witness :
    urlRewrite (toL "see `<code>` here") = toL "see `<code>` here" ∧
    codeSpans (escape_html_tags (toL "see `<code>` here")) =
      codeSpans (toL "see `<code>` here") :=
  ⟨by decide,
   escape_html_tags_preserves_codeSpans (toL "see `<code>` here") (by decide)⟩

/-! ### Claim C2 -/

/-- Claim C2: evaluation of the escaper at the spec's two examples.  The
second example behaves as specified — a bare placeholder URL is wrapped in
backticks — but the first does not: a URL that already sits inside a code span
is wrapped again, which creates empty code spans and lets its angle brackets
be escaped, instead of the input being returned byte-identically as the spec
and the function's own docstring ("preserve them in code blocks") state. -/
theorem escape_html_tags_localhost_examples :
    escape_html_tags (toL "`http://localhost:<port>` already in code") =
      toL "``http://localhost:&lt;port&gt;`` already in code" ∧
    escape_html_tags (toL "Visit http://localhost:<port> to see") =
      toL "Visit `http://localhost:<port>` to see" := by decide

/-! ### Claim C3 -/

/-- Claim C3, counterexample: escape_html_tags is not idempotent on every
input — on "http://localhost:<p>" the first pass wraps the URL in backticks,
and the second pass rewrites the wrapped URL again and escapes its angle
brackets. -/
theorem escape_idempotent_counterexample :
    escape_html_tags (escape_html_tags (toL "http://localhost:<p>")) ≠
      escape_html_tags (toL "http://localhost:<p>") := by decide

/-- Claim C3, amended: escape_html_tags is idempotent on every input whose
escaped form is left unchanged by the URL-placeholder rewrites of lines 40-41;
in particular the &lt;/&gt; entities produced by the first pass are never
re-escaped.  The restriction is forced by the counterexample, where the first
pass leaves a placeholder URL inside a code span of its output. -/
theorem escape_html_tags_idem (s : List Char)
    (h : urlRewrite (escape_html_tags s) = escape_html_tags s) :
    escape_html_tags (escape_html_tags s) = escape_html_tags s := by
  have h2 : escape_html_tags (escape_html_tags s) = escPhase (escape_html_tags s) := by
    show escPhase (urlRewrite (escape_html_tags s)) = _
    rw [h]
  rw [h2]
  show escPhase (escPhase (urlRewrite s)) = escape_html_tags s
  rw [escPhase_idem (urlRewrite s).length (urlRewrite s) le_rfl]
  rfl

/-- Witness for the amended claim C3 at the concrete input "a <b> and `c <d>`". -/
theorem escape_html_tags_idem_witness :
    urlRewrite (escape_html_tags (toL "a <b> and `c <d>`")) =
      escape_html_tags (toL "a <b> and `c <d>`") ∧
    escape_html_tags (escape_html_tags (toL "a <b> and `c <d>`")) =
      escape_html_tags (toL "a <b> and `c <d>`") :=
  ⟨by decide, escape_html_tags_idem (toL "a <b> and `c <d>`") (by decide)⟩

/-! ### Claim C5 -/

/-- Claim C5: on the spec's example help text the description parses to
"Does the foo thing." and the options table consists of exactly the two rows
("-v, --verbose", "Increase verbosity") and
("--out TEXT", "Output path. Defaults to stdout."), in source order, the
continuation line of the second option joined to its first line by a single
space.  The third conjunct exhibits the table as the header plus exactly these
two rows built by optionRow. -/
theorem example_help_parses :
    extract_description (toL "Usage: cli foo [OPTIONS]\n\nDoes the foo thing.\n\nOptions:\n  -v, --verbose  Increase verbosity\n  --out TEXT     Output path.\n                  Defaults to stdout.") =
      toL "Does the foo thing." ∧
    format_options_section (toL "Usage: cli foo [OPTIONS]\n\nDoes the foo thing.\n\nOptions:\n  -v, --verbose  Increase verbosity\n  --out TEXT     Output path.\n                  Defaults to stdout.") =
      toL "| Option | Description |\n|--------|-------------|\n| `-v, --verbose` | Increase verbosity |\n| `--out TEXT` | Output path. Defaults to stdout. |\n" ∧
    format_options_section (toL "Usage: cli foo [OPTIONS]\n\nDoes the foo thing.\n\nOptions:\n  -v, --verbose  Increase verbosity\n  --out TEXT     Output path.\n                  Defaults to stdout.") =
      toL "| Option | Description |\n|--------|-------------|" ++ toL "\n"
        ++ joinSep (toL "\n")
          [optionRow (toL "-v, --verbose") [toL "Increase verbosity"],
           optionRow (toL "--out TEXT") [toL "Output path.", toL "Defaults to stdout."]]
        ++ toL "\n" := by
  refine ⟨by decide, by decide, by decide⟩

/-! ### Claim C7 -/

theorem findStartsGo_fst {ls : List (List Char)}
    (h : ∀ l ∈ ls, pyStrip l ≠ toL "Options:") :
    ∀ (i : Nat) (acc : Option Nat), (findStartsGo ls i acc).1 = acc := by
  induction ls with
  | nil => intro i acc; rfl
  | cons l ls ih =>
    intro i acc
    have hl : ¬(pyStrip l = toL "Options:") := h l (by simp)
    simp only [findStartsGo, if_neg hl]
    by_cases hc : pyStrip l = toL "Commands:"
    · simp [hc]
    · simp only [if_neg hc]
      exact ih (fun x hx => h x (List.mem_cons_of_mem _ hx)) (i + 1) acc

theorem findCmdStart_none {ls : List (List Char)}
    (h : ∀ l ∈ ls, pyStrip l ≠ toL "Commands:") :
    ∀ i : Nat, findCmdStart ls i = none := by
  induction ls with
  | nil => intro i; rfl
  | cons l ls ih =>
    intro i
    have hl : ¬(pyStrip l = toL "Commands:") := h l (by simp)
    simp only [findCmdStart, if_neg hl]
    exact ih (fun x hx => h x (List.mem_cons_of_mem _ hx)) (i + 1)

/-- Claim C7: a help text with no line whose stripped content is exactly
"Options:" produces an empty options section, and one with no line stripping
to "Commands:" produces an empty commands section — a missing header is never
an error, the section is simply absent. -/
theorem missing_headers_give_empty :
    (∀ help : List Char, (∀ l ∈ splitLines help, pyStrip l ≠ toL "Options:") →
      format_options_section help = []) ∧
    (∀ help : List Char, (∀ l ∈ splitLines help, pyStrip l ≠ toL "Commands:") →
      format_commands_section help = []) := by
  constructor
  · intro help h
    unfold format_options_section
    cases hgo : findStartsGo (splitLines help) 0 none with
    | mk a b =>
      have ha : a = none := by
        have hfst := findStartsGo_fst h 0 none
        rw [hgo] at hfst
        exact hfst
      subst ha
      dsimp only
      rw [hgo]
  · intro help h
    unfold format_commands_section
    dsimp only
    rw [findCmdStart_none h 0]

/-- Witness for claim C7 at a concrete help text lacking both headers. -/
theorem missing_headers_give_empty_witness :
    format_options_section (toL "Usage: cli\n\nJust text.") = [] ∧
    format_commands_section (toL "Usage: cli\n\nJust text.") = [] :=
  ⟨missing_headers_give_empty.1 (toL "Usage: cli\n\nJust text.") (by decide),
   missing_headers_give_empty.2 (toL "Usage: cli\n\nJust text.") (by decide)⟩

/-! ### Claim C8 -/

/-- Claim C8: the writer compares the assembled document byte for byte with
any existing file content and writes only when they differ: when the existing
content equals the document nothing is written and the content is unchanged,
after any run the content is the document, and a second run with the same
document never writes. -/
theorem writeIfChanged_spec (e : Option (List Char)) (m : List Char) :
    writeIfChanged (some m) m = (some m, false) ∧
    (writeIfChanged e m).1 = some m ∧
    writeIfChanged (writeIfChanged e m).1 m = (some m, false) ∧
    ((writeIfChanged e m).2 = true ↔ e ≠ some m) := by
  unfold writeIfChanged
  cases e with
  | none => simp
  | some x =>
    by_cases hx : x = m
    · subst hx
      simp
    · simp [hx]

/-! ### Claim C9 -/

theorem getLast?_cons_or {α : Type} (a : α) (l : List α) :
    (a :: l).getLast? = l.getLast?.or (some a) := by
  induction l generalizing a with
  | nil => rfl
  | cons b t ih =>
    rw [List.getLast?_cons_cons, ih b]
    cases t.getLast? <;> rfl

theorem selectMain_go (docs : List CommandDoc) :
    ∀ (m : Option CommandDoc) (l : List CommandDoc),
      docs.foldl selectStep (m, l) =
      (((docs.filter fun d => d.parent.isEmpty).getLast?).or m,
       l ++ docs.filter fun d => !d.parent.isEmpty) := by
  induction docs with
  | nil =>
    intro m l
    simp
  | cons d ds ih =>
    intro m l
    rw [List.foldl_cons]
    by_cases hd : d.parent.isEmpty
    · rw [show selectStep (m, l) d = (some d, l) from by simp [selectStep, hd]]
      rw [ih (some d) l]
      rw [List.filter_cons_of_pos (by simpa using hd),
        List.filter_cons_of_neg (by simpa using hd)]
      rw [getLast?_cons_or, Option.or_assoc, Option.or_some]
    · rw [show selectStep (m, l) d = (m, l ++ [d]) from by simp [selectStep, hd]]
      rw [ih m (l ++ [d])]
      rw [List.filter_cons_of_neg (by simpa using hd),
        List.filter_cons_of_pos (by simpa using hd)]
      rw [List.append_assoc]
      rfl

/-- Claim C9: when the input contains several entries with an empty parent no
error occurs — the last such entry in input order becomes the root command and
the earlier ones are silently dropped: the root slot of the partition is the
last falsy-parent doc, and the subcommand list is exactly the docs with a
nonempty parent (so an overwritten root appears nowhere in the output). -/
theorem selectMain_last_root_wins (docs : List CommandDoc) :
    (selectMain docs).1 = (docs.filter fun d => d.parent.isEmpty).getLast? ∧
    (selectMain docs).2 = docs.filter fun d => !d.parent.isEmpty := by
  unfold selectMain
  rw [selectMain_go docs none []]
  constructor
  · cases (docs.filter fun d => d.parent.isEmpty).getLast? <;> rfl
  · rfl

/-! ### Claim C10 -/

theorem splitLines_ne_nil (s : List Char) : splitLines s ≠ [] := by
  cases s with
  | nil => simp [splitLines]
  | cons c cs =>
    simp only [splitLines]
    cases splitLines cs with
    | nil => simp
    | cons l ls => by_cases h : c = '\n' <;> simp [h]

theorem splitLines_append_nl (x y : List Char) :
    splitLines (x ++ '\n' :: y) = splitLines x ++ splitLines y := by
  induction x with
  | nil =>
    simp only [List.nil_append, splitLines]
    cases hy : splitLines y with
    | nil => exact absurd hy (splitLines_ne_nil y)
    | cons l ls => simp
  | cons c cs ih =>
    simp only [List.cons_append, splitLines, List.append_eq]
    rw [ih]
    cases hcs : splitLines cs with
    | nil => exact absurd hcs (splitLines_ne_nil cs)
    | cons l ls => by_cases h : c = '\n' <;> simp [h, hcs]

theorem splitLines_no_nl {x : List Char} (h : '\n' ∉ x) : splitLines x = [x] := by
  induction x with
  | nil => rfl
  | cons c cs ih =>
    have hc : ¬(c = '\n') := fun hh => h (by simp [hh])
    simp only [splitLines, ih (fun hh => h (by simp [hh])), if_neg hc]

theorem mem_splitLines_joinSep {parts : List (List Char)} {p : List Char}
    (hp : p ∈ parts) {x : List Char} (hx : x ∈ splitLines p) :
    x ∈ splitLines (joinSep (toL "\n") parts) := by
  induction parts with
  | nil => simp at hp
  | cons a rest ih =>
    cases rest with
    | nil =>
      simp only [List.mem_singleton] at hp
      subst hp
      simpa [joinSep] using hx
    | cons b rest2 =>
      have hnl : toL "\n" = ['\n'] := rfl
      have hj : joinSep (toL "\n") (a :: b :: rest2) =
          a ++ '\n' :: joinSep (toL "\n") (b :: rest2) := by
        show a ++ toL "\n" ++ joinSep (toL "\n") (b :: rest2) = _
        rw [hnl]
        simp
      rw [hj, splitLines_append_nl]
      rcases List.mem_cons.mp hp with h1 | h2
      · subst h1
        exact List.mem_append_left _ hx
      · exact List.mem_append_right _ (ih h2)

/-- Claim C10: the "## Command Details" heading is emitted unconditionally —
for every input list of docs, including the empty one, the assembled document
contains it as a full line — and consequently the document is never the empty
string. -/
theorem command_details_always_present (docs : List CommandDoc) :
    toL "## Command Details" ∈ splitLines (generate_command_docs docs) ∧
    generate_command_docs docs ≠ [] := by
  have hmem : toL "## Command Details" ∈
      ((match (selectMain docs).1 with
        | some m => mainSection m
        | none => []) ++ [toL "## Command Details", []]
       ++ (sortedSubs (selectMain docs).2).flatMap subSection) := by
    simp
  have h1 : toL "## Command Details" ∈ splitLines (generate_command_docs docs) := by
    unfold generate_command_docs
    exact mem_splitLines_joinSep hmem
      (by rw [splitLines_no_nl (by decide)]; simp)
  refine ⟨h1, ?_⟩
  intro hnil
  rw [hnil] at h1
  simp [splitLines] at h1
  exact absurd h1 (by decide)

/-! ### Claim C6 -/

theorem lexLe_total (a b : List Char) : lexLe a b || lexLe b a := by
  induction a generalizing b with
  | nil => simp [lexLe]
  | cons x xs ih =>
    cases b with
    | nil => simp [lexLe]
    | cons y ys =>
      simp only [lexLe]
      by_cases h1 : x.toNat < y.toNat
      · simp [h1]
      · by_cases h2 : y.toNat < x.toNat
        · simp [h1, h2]
        · simp [h1, h2, ih ys]

theorem lexLe_trans (a b c : List Char) (h1 : lexLe a b) (h2 : lexLe b c) :
    lexLe a c := by
  induction a generalizing b c with
  | nil => simp [lexLe]
  | cons x xs ih =>
    cases b with
    | nil => simp [lexLe] at h1
    | cons y ys =>
      cases c with
      | nil => simp [lexLe] at h2
      | cons z zs =>
        simp only [lexLe] at h1 h2 ⊢
        by_cases hxy : x.toNat < y.toNat
        · by_cases hyz : y.toNat < z.toNat
          · simp [show x.toNat < z.toNat by omega]
          · by_cases hzy : z.toNat < y.toNat
            · simp [hyz, hzy] at h2
            · simp [show x.toNat < z.toNat by omega]
        · by_cases hyx : y.toNat < x.toNat
          · simp [hxy, hyx] at h1
          · by_cases hyz : y.toNat < z.toNat
            · simp [show x.toNat < z.toNat by omega]
            · by_cases hzy : z.toNat < y.toNat
              · simp [hyz, hzy] at h2
              · simp [hxy, hyx] at h1
                simp [hyz, hzy] at h2
                simp [show ¬x.toNat < z.toNat by omega,
                  show ¬z.toNat < x.toNat by omega]
                exact ih ys zs h1 h2

/-- Claim C6: the subcommand subsections of the assembled document appear in
ascending lexicographic order of command name whatever the order of the input
sequence: the emission order used by generate_command_docs (sortedSubs of the
partitioned subcommands) lists the names pairwise in lexLe order, and is a
permutation of the subcommand names of the input. -/
theorem command_details_sorted (docs : List CommandDoc) :
    List.Pairwise (fun a b => lexLe a b)
      ((sortedSubs (selectMain docs).2).map fun d => d.name) ∧
    ((sortedSubs (selectMain docs).2).map fun d => d.name).Perm
      ((selectMain docs).2.map fun d => d.name) := by
  constructor
  · unfold sortedSubs
    refine List.pairwise_map.mpr ?_
    exact @List.sorted_mergeSort CommandDoc nameLe
      (fun a b c hab hbc => lexLe_trans _ _ _ hab hbc)
      (fun a b => lexLe_total a.name b.name)
      (selectMain docs).2
  · unfold sortedSubs
    exact (List.mergeSort_perm (selectMain docs).2 nameLe).map _

/-! ### Claim C4 -/

/-- Claim C4, counterexample: the commands table does not pass its description
cells through the escaper — on a help text whose command description contains
angle brackets the emitted cell is the raw description, which differs from its
escaped form. -/
theorem format_commands_not_escaped :
    format_commands_section (toL "Commands:\n  foo  Does <thing>") =
      toL "| Command | Description |\n|---------|-------------|\n| `foo` | Does <thing> |\n" ∧
    escape_html_tags (toL "Does <thing>") = toL "Does &lt;thing&gt;" ∧
    toL "Does <thing>" ≠ toL "Does &lt;thing&gt;" := by
  refine ⟨by decide, by decide, by decide⟩

/-- Claim C4, amended: every body row emitted by the options-table loop — for
any sequence of option lines and any loop state — has the shape
optionRow o d, i.e. a two-cell row whose description cell is the
space-joined, stripped description passed through escape_html_tags; the
commands table, by contrast, emits its description cells without escaping
(witnessed by the concrete table of the second conjunct). -/
theorem options_rows_escaped (ls : List (List Char)) (curOpt : Option (List Char))
    (curDesc : List (List Char)) (row : List Char)
    (hrow : row ∈ optionsLoop ls curOpt curDesc) :
    (∃ o d, row = optionRow o d) ∧
    format_commands_section (toL "Commands:\n  foo  Does <thing>") =
      toL "| Command | Description |\n|---------|-------------|\n| `foo` | Does <thing> |\n" := by
  refine ⟨?_, by decide⟩
  induction ls generalizing curOpt curDesc with
  | nil =>
    cases curOpt with
    | none => simp [optionsLoop] at hrow
    | some o =>
      simp only [optionsLoop, List.mem_singleton] at hrow
      exact ⟨o, curDesc, hrow⟩
  | cons line rest ih =>
    simp only [optionsLoop] at hrow
    split at hrow
    · exact ih _ _ hrow
    · split at hrow
      · rcases List.mem_append.mp hrow with hf | hr
        · split at hf
          · rcases List.mem_singleton.mp hf with rfl
            exact ⟨_, _, rfl⟩
          · simp at hf
        · split at hr
          · exact ih _ _ hr
          · exact ih _ _ hr
      · split at hrow
        · exact ih _ _ hrow
        · exact ih _ _ hrow

/-- Witness for the amended claim C4 at a concrete option line. -/
theorem options_rows_escaped_witness :
    (∃ o d, optionRow (toL "-v") [toL "x"] = optionRow o d) ∧
    format_commands_section (toL "Commands:\n  foo  Does <thing>") =
      toL "| Command | Description |\n|---------|-------------|\n| `foo` | Does <thing> |\n" :=
  options_rows_escaped [toL "  -v  x"] none [] (optionRow (toL "-v") [toL "x"])
    (by decide)

end CliDocs
